import Mathlib

/-!
Verification of the crossword_generator constraint encoders.

This file gives a shallow embedding of the two SAT/SMT encoders of the
repository (crossword.py for the rectangular grid, hex_crossword.py for the
hexagonal grid).  A satisfying assignment of the emitted formula is modelled
as a record of Boolean/finite-domain valuation functions, and the conjunction
of assertions appended to the res list of each encodeProblem is translated,
loop by loop, into a decidable proposition over that record.

Conventions:
* a word is a list of characters (Python upper-cased strings);
* the character sort Chars (EnumSort of the words' characters plus the
  distinguished empty constant) is modelled by Option Char, with none
  standing for the empty constant;
* rectangular cells are pairs of Nats (x, y) with x < size, y < size, and
  grid x y models grid[y][x];
* the rectangular orientation index 0 (horizontal) is the Boolean true and
  index 1 (vertical) is false;
* hexagonal cells are axial pairs (q, r) of Ints, orientations are Fin 3.
-/

set_option synthInstance.maxSize 2000
set_option maxRecDepth 4000

abbrev Word := List Char

/-- The two-character word used in concrete witness instances. -/
def wAB : Word := ['A', 'B']

/-! ## Rectangular geometry (crossword.py) -/

/-- crossword.py line 268: maxDistance(size) = (size + 1) ** 2 // 2 - 1. -/
def maxDistance (size : Nat) : Nat := (size + 1) ^ 2 / 2 - 1

/-- A valuation of all variables created by the rectangular encodeProblem:
placement Booleans (word, x, y, orientation), selection Booleans,
grid cell characters, and the connected-component helper Booleans
ccStartRow, ccStart and reach (inCc x y i). -/
structure RectAssign where
  P : Word → Nat → Nat → Bool → Bool
  S : Word → Bool
  G : Nat → Nat → Option Char
  ccStartRow : Nat → Bool
  ccStart : Nat → Nat → Bool
  inCc : Nat → Nat → Nat → Bool

/-- A placement variable exists for (w, x, y, o) when x and y are in range
(crossword.py lines 62-66 create a Bool for every such combination);
the placement is usable (receives constraints) only when the word fits,
which for horizontal placements means x + len(w) <= size and for vertical
ones y + len(w) <= size (lines 94 and 114). -/
def rectLegalB (w : Word) (size x y : Nat) (o : Bool) : Bool :=
  decide (x < size) && decide (y < size) &&
    (if o then decide (x + w.length ≤ size) else decide (y + w.length ≤ size))

/-- Lines 94-131: for a fitting placement, the placement variable implies the
grid characters along the word (match_expr) and the emptiness of the two
bounding cells when they are on the grid (bounded_by_spaces). -/
abbrev RectMatch (a : RectAssign) (w : Word) (size x y : Nat) : Prop :=
  (x + w.length ≤ size →
    a.P w x y true = true →
      (∀ i, (h : i < w.length) → a.G (x + i) y = some (w.get ⟨i, h⟩)) ∧
      (0 < x → a.G (x - 1) y = none) ∧
      (x + w.length < size → a.G (x + w.length) y = none)) ∧
  (y + w.length ≤ size →
    a.P w x y false = true →
      (∀ i, (h : i < w.length) → a.G x (y + i) = some (w.get ⟨i, h⟩)) ∧
      (0 < y → a.G x (y - 1) = none) ∧
      (y + w.length < size → a.G x (y + w.length) = none))

/-- The word_placement_vars list built by the placement loop of
encodeProblem (crossword.py lines 90-131): for each (x, y) of the grid, the
horizontal placement is recorded when x + len(w) <= size (line 94) and the
vertical one when y + len(w) <= size (line 114). -/
def rectWordPlacements (w : Word) (size : Nat) : List (Nat × Nat × Bool) :=
  ((List.range size).flatMap (fun x => (List.range size).map (fun y => (x, y)))).flatMap
    (fun c =>
      (if c.1 + w.length ≤ size then [(c.1, c.2, true)] else []) ++
      (if c.2 + w.length ≤ size then [(c.1, c.2, false)] else []))

/-- Line 134: AtMost(*word_placement_vars, 1) over the fitting placements of
one word. -/
abbrev RectAtMostOne (a : RectAssign) (w : Word) (size : Nat) : Prop :=
  ∀ p1 ∈ rectWordPlacements w size, ∀ p2 ∈ rectWordPlacements w size,
    a.P w p1.1 p1.2.1 p1.2.2 = true → a.P w p2.1 p2.2.1 p2.2.2 = true → p1 = p2

/-- Line 135: Implies(word_selection[word], Or(word_placement_vars)). -/
abbrev RectSelect (a : RectAssign) (w : Word) (size : Nat) : Prop :=
  a.S w = true →
    ∃ p ∈ rectWordPlacements w size, a.P w p.1 p.2.1 p.2.2 = true

/-- Lines 140-144: start of a horizontal sequence at (x, y) iff some word is
placed horizontally there (emitted when x + 1 < size). -/
abbrev RectSeqH (a : RectAssign) (words : List Word) (size x y : Nat) : Prop :=
  (((0 < x → a.G (x - 1) y = none) ∧ a.G x y ≠ none ∧ a.G (x + 1) y ≠ none)
    ↔ ∃ w ∈ words, x + w.length ≤ size ∧ a.P w x y true = true)

/-- Lines 146-151: start of a vertical sequence at (x, y) iff some word is
placed vertically there (emitted when y + 1 < size). -/
abbrev RectSeqV (a : RectAssign) (words : List Word) (size x y : Nat) : Prop :=
  (((0 < y → a.G x (y - 1) = none) ∧ a.G x y ≠ none ∧ a.G x (y + 1) ≠ none)
    ↔ ∃ w ∈ words, y + w.length ≤ size ∧ a.P w x y false = true)

/-- Lines 153-187: the connected-component constraints.  ccStartRow y holds
iff row y is non-empty and no earlier row is a start row; ccStart x y holds
iff (x, y) is the first non-empty position of the start row; inCc x y 0 is the
start position; inCc x y i (for i in [1, maxDistance]) implies the cell is
non-empty and some neighbour (or the cell itself) is reached in i - 1 steps;
every non-empty cell reaches the start in maxDistance steps. -/
abbrev RectCC (a : RectAssign) (size : Nat) : Prop :=
  (∀ y < size,
    (a.ccStartRow y = true ↔
      ((∃ x < size, a.G x y ≠ none) ∧ ∀ i < y, a.ccStartRow i = false))) ∧
  (∀ y < size, ∀ x < size,
    (a.ccStart x y = true ↔
      (a.ccStartRow y = true ∧ a.G x y ≠ none ∧ ∀ i < x, a.ccStart i y = false)) ∧
    (a.ccStart x y = a.inCc x y 0) ∧
    (∀ j < maxDistance size, a.inCc x y (j + 1) = true →
      (a.G x y ≠ none ∧
        (a.inCc x y j = true ∨
         (0 < x ∧ a.inCc (x - 1) y j = true) ∨
         (x + 1 < size ∧ a.inCc (x + 1) y j = true) ∨
         (0 < y ∧ a.inCc x (y - 1) j = true) ∨
         (y + 1 < size ∧ a.inCc x (y + 1) j = true)))) ∧
    (a.G x y ≠ none → a.inCc x y (maxDistance size) = true))

/-- Line 191: PbGe([(S(w), len(w))], minQuality), the quality floor. -/
abbrev RectQuality (a : RectAssign) (words : List Word) (Q : Int) : Prop :=
  Q ≤ (words.map (fun w => if a.S w then (w.length : Int) else 0)).sum

/-- The full conjunction of assertions emitted by the rectangular
encodeProblem (crossword.py lines 89-193). -/
abbrev RectSat (words : List Word) (size : Nat) (Q : Int) (a : RectAssign) : Prop :=
  (∀ w ∈ words,
    (∀ x < size, ∀ y < size, RectMatch a w size x y) ∧
    RectAtMostOne a w size ∧ RectSelect a w size) ∧
  (∀ x < size, ∀ y < size,
    (x + 1 < size → RectSeqH a words size x y) ∧
    (y + 1 < size → RectSeqV a words size x y)) ∧
  RectCC a size ∧ RectQuality a words Q

/-- Four-neighbour adjacency between in-grid rectangular cells. -/
def rectAdj (size : Nat) (c d : Nat × Nat) : Prop :=
  c.1 < size ∧ c.2 < size ∧ d.1 < size ∧ d.2 < size ∧
    ((d.1 = c.1 + 1 ∧ d.2 = c.2) ∨ (c.1 = d.1 + 1 ∧ d.2 = c.2) ∨
     (d.1 = c.1 ∧ d.2 = c.2 + 1) ∨ (d.1 = c.1 ∧ c.2 = d.2 + 1))

theorem rectAdj_symm (size : Nat) {c d : Nat × Nat} (h : rectAdj size c d) :
    rectAdj size d c := by
  obtain ⟨h1, h2, h3, h4, h5⟩ := h
  refine ⟨h3, h4, h1, h2, ?_⟩
  omega

/-! ### Concrete rectangular models used by witnesses and counterexamples -/

/-- A model of the formula for words = [AB], size = 2, Q = 0: AB is placed
horizontally at (0,0) but its selection variable is false. -/
def mAB : RectAssign where
  P := fun w x y o => w == wAB && x == 0 && y == 0 && o
  S := fun _ => false
  G := fun x y =>
    if x = 0 ∧ y = 0 then some 'A' else if x = 1 ∧ y = 0 then some 'B' else none
  ccStartRow := fun y => y == 0
  ccStart := fun x y => x == 0 && y == 0
  inCc := fun x y i => x == 0 && y == 0 || x == 1 && y == 0 && decide (1 ≤ i)

/-- A model of the formula for words = [AB], size = 2, Q = 0 in which the
single cell (1,1) holds the letter A and no word is placed at all. -/
def mIso : RectAssign where
  P := fun _ _ _ _ => false
  S := fun _ => false
  G := fun x y => if x = 1 ∧ y = 1 then some 'A' else none
  ccStartRow := fun y => y == 1
  ccStart := fun x y => x == 1 && y == 1
  inCc := fun x y _ => x == 1 && y == 1

/-- Membership in word_placement_vars is exactly: start cell in range and the
word fits in the chosen direction. -/
theorem mem_rectWordPlacements (w : Word) (size : Nat) (p : Nat × Nat × Bool) :
    p ∈ rectWordPlacements w size ↔
      (p.1 < size ∧ p.2.1 < size ∧
        (if p.2.2 then p.1 + w.length ≤ size else p.2.1 + w.length ≤ size)) := by
  obtain ⟨x, y, o⟩ := p
  simp only [rectWordPlacements, List.mem_flatMap, List.mem_map, List.mem_range]
  constructor
  · rintro ⟨c, ⟨x', hx', ⟨y', hy', rfl⟩⟩, hmem⟩
    rcases List.mem_append.mp hmem with h | h
    · split at h
      · simp only [List.mem_singleton, Prod.mk.injEq] at h
        obtain ⟨rfl, rfl, rfl⟩ := h
        simp_all
      · cases h
    · split at h
      · simp only [List.mem_singleton, Prod.mk.injEq] at h
        obtain ⟨rfl, rfl, rfl⟩ := h
        simp_all
      · cases h
  · rintro ⟨hx, hy, hfit⟩
    refine ⟨(x, y), ⟨x, hx, y, hy, rfl⟩, List.mem_append.mpr ?_⟩
    cases o with
    | true =>
      rw [if_pos rfl] at hfit
      exact Or.inl (by simp [hfit])
    | false =>
      rw [if_neg Bool.false_ne_true] at hfit
      exact Or.inr (by simp [hfit])

/-! ## Hexagonal geometry (hex_crossword.py) -/

/-- Membership of an axial coordinate in the hex disk of the given radius
(hex_crossword.py line 24: abs(q) + abs(r) + abs(-q-r) <= 2 * radius). -/
abbrev inHex (R : Nat) (c : Int × Int) : Prop :=
  c.1.natAbs + c.2.natAbs + (c.1 + c.2).natAbs ≤ 2 * R

/-- The loop range range(-radius, radius + 1) of get_hex_cells_in_radius. -/
def axialRange (R : Nat) : List Int :=
  (List.range (2 * R + 1)).map (fun (t : Nat) => (t : Int) - (R : Int))

theorem mem_axialRange (R : Nat) (z : Int) :
    z ∈ axialRange R ↔ -(R : Int) ≤ z ∧ z ≤ (R : Int) := by
  constructor
  · intro hz
    obtain ⟨t, ht, hte⟩ := List.mem_map.mp hz
    have ht' := List.mem_range.mp ht
    have e : (t : Int) - (R : Int) = z := hte
    omega
  · rintro ⟨h1, h2⟩
    refine List.mem_map.mpr ⟨(z + R).toNat, List.mem_range.mpr (by omega), ?_⟩
    show ((z + R).toNat : Int) - (R : Int) = z
    omega

/-- get_hex_cells_in_radius (lines 18-26): all (q, r) with q, r in
[-radius, radius] satisfying the disk inequality, in loop order (lex by q
then r).  This order is the reading order the connectivity start-cell
constraint relies on. -/
def hexCells (R : Nat) : List (Int × Int) :=
  (axialRange R).flatMap (fun q =>
    (axialRange R).filterMap (fun r =>
      if q.natAbs + r.natAbs + (q + r).natAbs ≤ 2 * R then some (q, r) else none))

theorem mem_hexCells (R : Nat) (c : Int × Int) : c ∈ hexCells R ↔ inHex R c := by
  obtain ⟨q, r⟩ := c
  simp only [hexCells, List.mem_flatMap, List.mem_filterMap, mem_axialRange]
  constructor
  · rintro ⟨q', hq', r', hr', h⟩
    split at h
    · simp only [Option.some_inj, Prod.mk.injEq] at h
      obtain ⟨rfl, rfl⟩ := h
      assumption
    · cases h
  · intro h
    have h' : q.natAbs + r.natAbs + (q + r).natAbs ≤ 2 * R := h
    refine ⟨q, by omega, ⟨r, by omega, ?_⟩⟩
    rw [if_pos h']

/-- get_hex_neighbors (lines 10-16). -/
def hexNeighbors (c : Int × Int) : List (Int × Int) :=
  [(c.1 + 1, c.2), (c.1 - 1, c.2), (c.1, c.2 + 1), (c.1, c.2 - 1),
   (c.1 + 1, c.2 - 1), (c.1 - 1, c.2 + 1)]

theorem hexNeighbors_symm {c d : Int × Int} (h : d ∈ hexNeighbors c) :
    c ∈ hexNeighbors d := by
  obtain ⟨q, r⟩ := c
  obtain ⟨q', r'⟩ := d
  simp only [hexNeighbors, List.mem_cons, List.mem_singleton, List.not_mem_nil,
    or_false, Prod.mk.injEq] at h ⊢
  omega

/-- The cell occupied by letter i of a word placed at (q, r) with the given
orientation (lines 79-84: orientation 0 moves along q, orientation 1 along r,
orientation 2 along the anti-diagonal). -/
def hexStep (q r : Int) (o : Fin 3) (i : Int) : Int × Int :=
  if o = 0 then (q + i, r) else if o = 1 then (q, r + i) else (q + i, r - i)

/-- Placement legality (lines 76-89): every letter cell is on the disk. -/
abbrev hexLegal (w : Word) (R : Nat) (q r : Int) (o : Fin 3) : Prop :=
  ∀ i < w.length, inHex R (hexStep q r o (i : Int))

/-- hexMaxDist: line 145, max_dist = len(grid_coords) // 2. -/
def hexMaxDist (R : Nat) : Nat := (hexCells R).length / 2

/-- A valuation of the variables of the hexagonal encodeProblem. -/
structure HexAssign where
  P : Word → Int → Int → Fin 3 → Bool
  S : Word → Bool
  G : Int → Int → Option Char
  ccStart : Int → Int → Bool
  inCc : Nat → Int → Int → Bool

/-- Lines 91-116: a placed word fixes its letters on the grid and requires
the bounding cell before the start and after the end (when on the disk) to
be empty.  The cell before the start is hexStep (-1) and the cell after the
end is hexStep len(w) (lines 104-113). -/
abbrev HexMatch (a : HexAssign) (w : Word) (R : Nat) (q r : Int) (o : Fin 3) : Prop :=
  hexLegal w R q r o →
    a.P w q r o = true →
      (∀ i, (h : i < w.length) →
        a.G (hexStep q r o (i : Int)).1 (hexStep q r o (i : Int)).2 = some (w.get ⟨i, h⟩)) ∧
      (inHex R (hexStep q r o (-1)) →
        a.G (hexStep q r o (-1)).1 (hexStep q r o (-1)).2 = none) ∧
      (inHex R (hexStep q r o (w.length : Int)) →
        a.G (hexStep q r o (w.length : Int)).1 (hexStep q r o (w.length : Int)).2 = none)

/-- The word_placement_vars list of the hexagonal encoder (lines 72-94):
for each disk cell, in reading order, and each of the three orientations,
the placement is recorded when it is legal. -/
def hexWordPlacements (w : Word) (R : Nat) : List ((Int × Int) × Fin 3) :=
  (hexCells R).flatMap (fun c =>
    (List.finRange 3).filterMap (fun o =>
      if hexLegal w R c.1 c.2 o then some (c, o) else none))

/-- Line 119: AtMost(*word_placement_vars, 1). -/
abbrev HexAtMostOne (a : HexAssign) (w : Word) (R : Nat) : Prop :=
  ∀ p1 ∈ hexWordPlacements w R, ∀ p2 ∈ hexWordPlacements w R,
    a.P w p1.1.1 p1.1.2 p1.2 = true → a.P w p2.1.1 p2.1.2 p2.2 = true → p1 = p2

/-- Line 120: Implies(word_selection[word], Or(word_placement_vars)). -/
abbrev HexSelect (a : HexAssign) (w : Word) (R : Nat) : Prop :=
  a.S w = true → ∃ p ∈ hexWordPlacements w R, a.P w p.1.1 p.1.2 p.2 = true

/-- Lines 122-143: the sequence-start biconditional, emitted for each disk
cell and orientation whose next cell is also on the disk. -/
abbrev HexSeq (a : HexAssign) (words : List Word) (R : Nat) (q r : Int) (o : Fin 3) : Prop :=
  inHex R (hexStep q r o 1) →
    (((inHex R (hexStep q r o (-1)) →
        a.G (hexStep q r o (-1)).1 (hexStep q r o (-1)).2 = none) ∧
      a.G q r ≠ none ∧
      a.G (hexStep q r o 1).1 (hexStep q r o 1).2 ≠ none)
      ↔ ∃ w ∈ words, hexLegal w R q r o ∧ a.P w q r o = true)

/-- Lines 144-168: the connected-component constraints.  cc_start holds at a
cell iff it is non-empty and all earlier cells in reading order are empty;
in_cc 0 equals cc_start; in_cc (j+1) is a biconditional with the neighbour
propagation; all non-empty cells are reached within max_dist steps. -/
abbrev HexCC (a : HexAssign) (R : Nat) : Prop :=
  (∀ k, (hk : k < (hexCells R).length) →
    (a.ccStart ((hexCells R).get ⟨k, hk⟩).1 ((hexCells R).get ⟨k, hk⟩).2 = true ↔
      (a.G ((hexCells R).get ⟨k, hk⟩).1 ((hexCells R).get ⟨k, hk⟩).2 ≠ none ∧
       ∀ c ∈ (hexCells R).take k, a.G c.1 c.2 = none))) ∧
  (∀ c ∈ hexCells R, a.inCc 0 c.1 c.2 = a.ccStart c.1 c.2) ∧
  (∀ c ∈ hexCells R, ∀ j < hexMaxDist R,
    (a.inCc (j + 1) c.1 c.2 = true ↔
      (a.G c.1 c.2 ≠ none ∧
        (a.inCc j c.1 c.2 = true ∨
         ∃ n ∈ hexNeighbors c, inHex R n ∧ a.inCc j n.1 n.2 = true)))) ∧
  (∀ c ∈ hexCells R, a.G c.1 c.2 ≠ none → a.inCc (hexMaxDist R) c.1 c.2 = true)

/-- Line 171: the PbGe quality floor. -/
abbrev HexQuality (a : HexAssign) (words : List Word) (Q : Int) : Prop :=
  Q ≤ (words.map (fun w => if a.S w then (w.length : Int) else 0)).sum

/-- The full conjunction of assertions emitted by the hexagonal
encodeProblem (hex_crossword.py lines 70-173). -/
abbrev HexSat (words : List Word) (R : Nat) (Q : Int) (a : HexAssign) : Prop :=
  (∀ w ∈ words,
    (∀ c ∈ hexCells R, ∀ o : Fin 3, HexMatch a w R c.1 c.2 o) ∧
    HexAtMostOne a w R ∧ HexSelect a w R) ∧
  (∀ c ∈ hexCells R, ∀ o : Fin 3, HexSeq a words R c.1 c.2 o) ∧
  HexCC a R ∧ HexQuality a words Q

/-- A model of the hexagonal formula for words = [AB], R = 1, Q = 2: AB is
placed at (0,0) with orientation 0 and selected. -/
def mHexAB : HexAssign where
  P := fun w q r o => w == wAB && q == 0 && r == 0 && o == 0
  S := fun w => w == wAB
  G := fun q r =>
    if q = 0 ∧ r = 0 then some 'A' else if q = 1 ∧ r = 0 then some 'B' else none
  ccStart := fun q r => q == 0 && r == 0
  inCc := fun i q r => q == 0 && r == 0 || q == 1 && r == 0 && decide (1 ≤ i)

/-! ## C4: the diameter bound of the connectivity encoding -/

/-- Reachability inside a fixed subset of cells in at most k steps of the
hexagonal neighbour relation (all intermediate cells drawn from the
subset). -/
def hexReachInB (S : List (Int × Int)) : Nat → (Int × Int) → (Int × Int) → Bool
  | 0, a, b => a == b
  | k + 1, a, b =>
    hexReachInB S k a b ||
      S.any (fun c => decide (c ∈ hexNeighbors a) && hexReachInB S k c b)

/-- The 5-cell open ring inside the radius-1 hex disk: consecutive cells are
neighbours, and the two end cells are 4 steps apart inside the set. -/
def ringS : List (Int × Int) := [(1, 0), (0, 1), (-1, 1), (-1, 0), (0, -1)]

/-! ## C6: the precondition checks of the two generators -/

/-- Outcome of the validation prologue of generateCrossword /
generateHexCrossword: ok means encoding is reached, assertError an assert
statement fired, valueError the Python max() of an empty sequence raised. -/
inductive Precheck where
  | ok
  | assertError
  | valueError
deriving DecidableEq

/-- max(len(w) for w in ws), with 0 for the empty list. -/
def maxLenW (ws : List Word) : Nat := (ws.map List.length).foldr max 0

theorem le_maxLenW {w : Word} {ws : List Word} (h : w ∈ ws) :
    w.length ≤ maxLenW ws := by
  induction ws with
  | nil => cases h
  | cons a l ih =>
    rcases List.mem_cons.mp h with rfl | h'
    · exact Nat.le_max_left _ _
    · exact Nat.le_trans (ih h') (Nat.le_max_right _ _)

/-- The validation prologue of generateCrossword (crossword.py lines 36-40):
dedup (which changes neither emptiness nor the maximal length), then
assert minQuality >= 0, assert size > 0, and assert
size >= max(len(w) for w in words); on an empty list the max() call itself
raises a ValueError before the comparison. -/
def rectPrecheck (words : List Word) (size : Int) (minQuality : Int) : Precheck :=
  if minQuality < 0 then .assertError
  else if size ≤ 0 then .assertError
  else if words = [] then .valueError
  else if (maxLenW words : Int) ≤ size then .ok
  else .assertError

/-- The validation prologue of generateHexCrossword (hex_crossword.py lines
255-259): words are filtered of empty strings, upper-cased and deduped;
max_len uses default 0, so an empty list raises nothing; then
assert radius > 0 and assert 2 * radius + 1 >= max_len.  No check at all is
made of minQuality. -/
def hexNormWords (words : List Word) : List Word :=
  ((words.filter (fun w => !w.isEmpty)).map (fun w => w.map Char.toUpper)).dedup

def hexPrecheck (words : List Word) (radius : Int) (_minQuality : Int) : Precheck :=
  if radius ≤ 0 then .assertError
  else if 2 * radius + 1 < (maxLenW (hexNormWords words) : Int) then .assertError
  else .ok

/-! ## C7: behaviour of exportCNF on a trivially inconsistent goal -/

/-- What exportCNF does once the CNF tactic has run, as a function of
whether the resulting subgoal is inconsistent. -/
inductive ExportResult where
  | wroteFile
  | returnedFalse
  | assertionFailed
deriving DecidableEq

/-- crossword.py lines 196-208: assert not subgoals[0].inconsistent() fires
on a trivially UNSAT goal, so no file is written and an AssertionError
propagates. -/
def rectExportCNF (inconsistent : Bool) : ExportResult :=
  if inconsistent then .assertionFailed else .wroteFile

/-- hex_crossword.py lines 175-190: on an inconsistent subgoal the function
prints a warning and returns False without writing the file. -/
def hexExportCNF (inconsistent : Bool) : ExportResult :=
  if inconsistent then .returnedFalse else .wroteFile

/-- How the enclosing session treats the export result. -/
inductive SessionOutcome where
  | printedUnsat
  | continuedToSolve
  | aborted
deriving DecidableEq

/-- generateCrossword (lines 43-54) does not guard the exportCNF call, so an
AssertionError aborts the whole session. -/
def rectSessionOnExport (e : ExportResult) : SessionOutcome :=
  match e with
  | .assertionFailed => .aborted
  | _ => .continuedToSolve

/-- generateHexCrossword (lines 265-269) checks the returned value: on False
it prints an unsatisfiability message and returns normally. -/
def hexSessionOnExport (e : ExportResult) : SessionOutcome :=
  match e with
  | .returnedFalse => .printedUnsat
  | _ => .continuedToSolve

/-! ## C8: the model interpreter -/

/-- The Placement named tuple of crossword.py (line 31). -/
structure RectPlacement where
  x : Nat
  y : Nat
  horizontal : Bool
deriving DecidableEq

/-- The scan order of interpret (crossword.py lines 221-223): y outer, x
inner. -/
def rectScanPairs (size : Nat) : List (Nat × Nat) :=
  (List.range size).flatMap (fun y => (List.range size).map (fun x => (y, x)))

/-- One iteration of the interpret loop body (lines 224-227): the horizontal
variable is tested first, the vertical one in an elif, and any previously
recorded placement for the word is silently overwritten. -/
def rectInterpretStep (P : Nat → Nat → Bool → Bool)
    (acc : Option RectPlacement) (yx : Nat × Nat) : Option RectPlacement :=
  if P yx.2 yx.1 true then some ⟨yx.2, yx.1, true⟩
  else if P yx.2 yx.1 false then some ⟨yx.2, yx.1, false⟩
  else acc

/-- The dict entry that interpret (lines 219-229) computes for one word.
The placement dict is keyed by word and each entry depends only on that
word's own placement variables, so interpret is modelled per word. -/
def rectInterpretWord (P : Nat → Nat → Bool → Bool) (size : Nat) :
    Option RectPlacement :=
  (rectScanPairs size).foldl (rectInterpretStep P) none

/-- The Placement named tuple of hex_crossword.py (line 41). -/
structure HexPlacement where
  q : Int
  r : Int
  orientation : Fin 3
deriving DecidableEq

/-- The dict entry that the hexagonal interpret (lines 200-210) computes for
one word: cells are scanned in grid order, orientations in order 0, 1, 2,
and the loop breaks at the first true placement variable. -/
def hexInterpretWord (P : Int → Int → Fin 3 → Bool) (R : Nat) :
    Option HexPlacement :=
  ((hexCells R).flatMap (fun c => (List.finRange 3).map (fun o => (c, o)))).findSome?
    (fun co => if P co.1.1 co.1.2 co.2 then some ⟨co.1.1, co.1.2, co.2⟩ else none)

theorem mem_rectScanPairs (size : Nat) (p : Nat × Nat) :
    p ∈ rectScanPairs size ↔ p.1 < size ∧ p.2 < size := by
  obtain ⟨y, x⟩ := p
  simp only [rectScanPairs, List.mem_flatMap, List.mem_map, List.mem_range]
  constructor
  · rintro ⟨y', hy', x', hx', h⟩
    obtain ⟨rfl, rfl⟩ := Prod.mk.injEq .. ▸ h
    exact ⟨hy', hx'⟩
  · rintro ⟨hy, hx⟩
    exact ⟨y, hy, x, hx, rfl⟩

theorem foldl_interpretStep_fixed (P : Nat → Nat → Bool → Bool)
    (v : RectPlacement) (l : List (Nat × Nat))
    (hfix : ∀ yx ∈ l, rectInterpretStep P (some v) yx = some v) :
    l.foldl (rectInterpretStep P) (some v) = some v := by
  induction l with
  | nil => rfl
  | cons hd tl ih =>
    rw [List.foldl_cons, hfix hd (List.mem_cons_self hd tl)]
    exact ih (fun yx hyx => hfix yx (List.mem_cons_of_mem hd hyx))

theorem rectInterpret_unique_aux (P : Nat → Nat → Bool → Bool) (size : Nat)
    (x0 y0 : Nat) (o0 : Bool)
    (ht : P x0 y0 o0 = true)
    (huniq : ∀ x < size, ∀ y < size, ∀ o : Bool,
      P x y o = true → (x, y, o) = (x0, y0, o0)) :
    ∀ l : List (Nat × Nat), (∀ p ∈ l, p.1 < size ∧ p.2 < size) →
      (y0, x0) ∈ l → ∀ acc,
      l.foldl (rectInterpretStep P) acc = some ⟨x0, y0, o0⟩ := by
  intro l
  induction l with
  | nil => intro _ hmem; cases hmem
  | cons hd tl ih =>
    intro hbnd hmem acc
    have hbhd := hbnd hd (List.mem_cons_self hd tl)
    by_cases he : hd = (y0, x0)
    · subst he
      have hstep : rectInterpretStep P acc (y0, x0) = some ⟨x0, y0, o0⟩ := by
        unfold rectInterpretStep
        cases o0 with
        | true => simp only [ht, if_true]
        | false =>
          have hH : P x0 y0 true = false := by
            by_contra hc
            have := huniq x0 hbhd.2 y0 hbhd.1 true (by revert hc; cases P x0 y0 true <;> simp)
            simp at this
          simp only [hH, Bool.false_eq_true, if_false, ht, if_true]
      rw [List.foldl_cons, hstep]
      refine foldl_interpretStep_fixed P _ tl (fun yx hyx => ?_)
      have hbyx := hbnd yx (List.mem_cons_of_mem _ hyx)
      unfold rectInterpretStep
      by_cases h1 : P yx.2 yx.1 true = true
      · have := huniq yx.2 hbyx.2 yx.1 hbyx.1 true h1
        simp only [Prod.mk.injEq] at this
        rw [if_pos h1]
        simp [this.1, this.2.1, this.2.2]
      · rw [if_neg h1]
        by_cases h2 : P yx.2 yx.1 false = true
        · have := huniq yx.2 hbyx.2 yx.1 hbyx.1 false h2
          simp only [Prod.mk.injEq] at this
          rw [if_pos h2]
          simp [this.1, this.2.1, this.2.2]
        · rw [if_neg h2]
    · have hmem' : (y0, x0) ∈ tl := by
        rcases List.mem_cons.mp hmem with h | h
        · exact absurd h.symm he
        · exact h
      have hstep : rectInterpretStep P acc hd = acc := by
        unfold rectInterpretStep
        by_cases h1 : P hd.2 hd.1 true = true
        · have := huniq hd.2 hbhd.2 hd.1 hbhd.1 true h1
          simp only [Prod.mk.injEq] at this
          exact absurd (Prod.ext this.2.1 this.1) he
        · rw [if_neg h1]
          by_cases h2 : P hd.2 hd.1 false = true
          · have := huniq hd.2 hbhd.2 hd.1 hbhd.1 false h2
            simp only [Prod.mk.injEq] at this
            exact absurd (Prod.ext this.2.1 this.1) he
          · rw [if_neg h2]
      rw [List.foldl_cons, hstep]
      exact ih (fun p hp => hbnd p (List.mem_cons_of_mem hd hp)) hmem' acc

/-- On a model whose unique true placement variable for a word is
(x0, y0, o0), the rectangular interpret returns exactly that placement. -/
theorem rectInterpretWord_unique (P : Nat → Nat → Bool → Bool) (size : Nat)
    (x0 y0 : Nat) (o0 : Bool) (hx : x0 < size) (hy : y0 < size)
    (ht : P x0 y0 o0 = true)
    (huniq : ∀ x < size, ∀ y < size, ∀ o : Bool,
      P x y o = true → (x, y, o) = (x0, y0, o0)) :
    rectInterpretWord P size = some ⟨x0, y0, o0⟩ :=
  rectInterpret_unique_aux P size x0 y0 o0 ht huniq (rectScanPairs size)
    (fun p hp => (mem_rectScanPairs size p).mp hp)
    ((mem_rectScanPairs size (y0, x0)).mpr ⟨hy, hx⟩) none

theorem findSome?_eq_of_unique {α β : Type} (g : α → Option β) (l : List α)
    (c0 : α) (v : β) (hmem : c0 ∈ l) (hc0 : g c0 = some v)
    (hothers : ∀ c ∈ l, c ≠ c0 → g c = none) :
    l.findSome? g = some v := by
  induction l with
  | nil => cases hmem
  | cons hd tl ih =>
    rw [List.findSome?_cons]
    by_cases he : hd = c0
    · subst he
      rw [hc0]
    · rw [hothers hd (List.mem_cons_self hd tl) he]
      refine ih ?_ (fun c hc hne => hothers c (List.mem_cons_of_mem hd hc) hne)
      rcases List.mem_cons.mp hmem with h | h
      · exact absurd h.symm he
      · exact h

/-- On a model whose unique true placement variable for a word is
(c0, o0), the hexagonal interpret returns exactly that placement. -/
theorem hexInterpretWord_unique (P : Int → Int → Fin 3 → Bool) (R : Nat)
    (c0 : Int × Int) (o0 : Fin 3) (hc : c0 ∈ hexCells R)
    (ht : P c0.1 c0.2 o0 = true)
    (huniq : ∀ c ∈ hexCells R, ∀ o : Fin 3,
      P c.1 c.2 o = true → (c, o) = (c0, o0)) :
    hexInterpretWord P R = some ⟨c0.1, c0.2, o0⟩ := by
  refine findSome?_eq_of_unique _ _ (c0, o0) _ ?_ ?_ ?_
  · exact List.mem_flatMap.mpr ⟨c0, hc, List.mem_map.mpr ⟨o0, List.mem_finRange o0, rfl⟩⟩
  · simp [ht]
  · rintro ⟨c, o⟩ hmem hne
    rcases hP : P c.1 c.2 o with _ | _
    · simp [hP]
    · have hcmem : c ∈ hexCells R := by
        obtain ⟨c', hc', ho⟩ := List.mem_flatMap.mp hmem
        obtain ⟨o', _, he⟩ := List.mem_map.mp ho
        obtain ⟨rfl, rfl⟩ := Prod.mk.injEq .. ▸ he
        exact hc'
      exact absurd (huniq c hcmem o hP) hne

/-- A model in which the word has two true placement variables,
at (0,0) and at (1,1), both horizontal. -/
def doubleP : Nat → Nat → Bool → Bool :=
  fun x y o => (x == 0 && y == 0 || x == 1 && y == 1) && o

/-! ## C9 / C10: variable allocation versus legality -/

/-- The placement_vars dict comprehension of crossword.py (lines 62-66):
one variable for every word, every in-range cell and both orientations,
with no legality filter. -/
def rectAllocatedVars (words : List Word) (size : Nat) :
    List (Word × Nat × Nat × Bool) :=
  words.flatMap (fun w =>
    (List.range size).flatMap (fun y =>
      (List.range size).flatMap (fun x => [(w, x, y, true), (w, x, y, false)])))

/-- The placement_vars dict comprehension of hex_crossword.py (lines 50-56):
one variable for every word, every disk cell and all three orientations,
with no legality filter. -/
def hexAllocatedVars (words : List Word) (R : Nat) :
    List (Word × (Int × Int) × Fin 3) :=
  words.flatMap (fun w =>
    (hexCells R).flatMap (fun c => (List.finRange 3).map (fun o => (w, c, o))))

theorem mem_rectAllocatedVars (words : List Word) (size : Nat) (w : Word)
    (x y : Nat) (o : Bool) :
    (w, x, y, o) ∈ rectAllocatedVars words size ↔
      w ∈ words ∧ x < size ∧ y < size := by
  simp only [rectAllocatedVars, List.mem_flatMap, List.mem_range, List.mem_cons,
    List.mem_singleton, List.not_mem_nil, or_false, Prod.mk.injEq]
  constructor
  · rintro ⟨w', hw', y', hy', x', hx', h⟩
    rcases h with ⟨rfl, rfl, rfl, rfl⟩ | ⟨rfl, rfl, rfl, rfl⟩ <;> exact ⟨hw', hx', hy'⟩
  · rintro ⟨hw, hx, hy⟩
    cases o with
    | true => exact ⟨w, hw, y, hy, x, hx, Or.inl ⟨rfl, rfl, rfl, rfl⟩⟩
    | false => exact ⟨w, hw, y, hy, x, hx, Or.inr ⟨rfl, rfl, rfl, rfl⟩⟩

theorem mem_hexAllocatedVars (words : List Word) (R : Nat) (w : Word)
    (c : Int × Int) (o : Fin 3) :
    (w, c, o) ∈ hexAllocatedVars words R ↔ w ∈ words ∧ inHex R c := by
  simp only [hexAllocatedVars, List.mem_flatMap, List.mem_map, Prod.mk.injEq]
  constructor
  · rintro ⟨w', hw', c', hc', o', _, rfl, rfl, rfl⟩
    exact ⟨hw', (mem_hexCells R c').mp hc'⟩
  · rintro ⟨hw, hc⟩
    exact ⟨w, hw, c, (mem_hexCells R c).mpr hc, o, List.mem_finRange o, rfl, rfl, rfl⟩

theorem mem_hexWordPlacements (w : Word) (R : Nat) (p : (Int × Int) × Fin 3) :
    p ∈ hexWordPlacements w R ↔
      p.1 ∈ hexCells R ∧ hexLegal w R p.1.1 p.1.2 p.2 := by
  obtain ⟨c, o⟩ := p
  simp only [hexWordPlacements, List.mem_flatMap, List.mem_filterMap]
  constructor
  · rintro ⟨c', hc', o', _, h⟩
    split at h
    · simp only [Option.some_inj, Prod.mk.injEq] at h
      obtain ⟨rfl, rfl⟩ := h
      next hleg => exact ⟨hc', hleg⟩
    · cases h
  · rintro ⟨hc, hleg⟩
    exact ⟨c, hc, o, List.mem_finRange o, by rw [if_pos hleg]⟩

/-! ## Generic bounded-BFS connectivity argument -/

theorem reach_start_path {γ : Type} (nonE startP : γ → Prop) (adj : γ → γ → Prop)
    (reach : Nat → γ → Prop) (D : Nat)
    (h0 : ∀ c, reach 0 c → startP c)
    (hstartne : ∀ c, startP c → nonE c)
    (hstep : ∀ j c, j < D → reach (j + 1) c →
      nonE c ∧ (reach j c ∨ ∃ n, adj c n ∧ reach j n)) :
    ∀ i, i ≤ D → ∀ c, reach i c →
      nonE c ∧ ∃ c0, startP c0 ∧
        Relation.ReflTransGen (fun u v => nonE u ∧ nonE v ∧ adj u v) c c0 := by
  intro i
  induction i with
  | zero =>
    intro _ c hc
    have hs := h0 c hc
    exact ⟨hstartne c hs, c, hs, Relation.ReflTransGen.refl⟩
  | succ j ih =>
    intro hle c hc
    obtain ⟨hne, hrest⟩ := hstep j c (by omega) hc
    rcases hrest with h | ⟨n, hadj, hn⟩
    · obtain ⟨_, c0, hs0, hp⟩ := ih (by omega) c h
      exact ⟨hne, c0, hs0, hp⟩
    · obtain ⟨hnen, c0, hs0, hp⟩ := ih (by omega) n hn
      exact ⟨hne, c0, hs0,
        Relation.ReflTransGen.trans (Relation.ReflTransGen.single ⟨hne, hnen, hadj⟩) hp⟩

theorem connected_of_bfs {γ : Type} (nonE startP : γ → Prop) (adj : γ → γ → Prop)
    (reach : Nat → γ → Prop) (D : Nat)
    (h0 : ∀ c, reach 0 c → startP c)
    (hstartne : ∀ c, startP c → nonE c)
    (hstep : ∀ j c, j < D → reach (j + 1) c →
      nonE c ∧ (reach j c ∨ ∃ n, adj c n ∧ reach j n))
    (hclosure : ∀ c, nonE c → reach D c)
    (huniq : ∀ c c', startP c → startP c' → c = c')
    (hsymm : ∀ u v, adj u v → adj v u) :
    ∀ a b, nonE a → nonE b →
      Relation.ReflTransGen (fun u v => nonE u ∧ nonE v ∧ adj u v) a b := by
  intro a b ha hb
  obtain ⟨_, c0, hs0, hpa⟩ :=
    reach_start_path nonE startP adj reach D h0 hstartne hstep D le_rfl a (hclosure a ha)
  obtain ⟨_, c0', hs0', hpb⟩ :=
    reach_start_path nonE startP adj reach D h0 hstartne hstep D le_rfl b (hclosure b hb)
  rw [huniq c0' c0 hs0' hs0] at hpb
  have hRsymm : Symmetric (fun u v => nonE u ∧ nonE v ∧ adj u v) :=
    fun u v h => ⟨h.2.1, h.1, hsymm u v h.2.2⟩
  exact Relation.ReflTransGen.trans hpa (Relation.ReflTransGen.symmetric hRsymm hpb)

/-! ## Connectivity of the two encoders (C2) -/

theorem rect_connected (words : List Word) (size : Nat) (Q : Int) (a : RectAssign)
    (hsat : RectSat words size Q a) :
    ∀ c1 c2 : Nat × Nat, c1.1 < size → c1.2 < size → c2.1 < size → c2.2 < size →
      a.G c1.1 c1.2 ≠ none → a.G c2.1 c2.2 ≠ none →
      Relation.ReflTransGen
        (fun u v => (u.1 < size ∧ u.2 < size ∧ a.G u.1 u.2 ≠ none) ∧
                    (v.1 < size ∧ v.2 < size ∧ a.G v.1 v.2 ≠ none) ∧ rectAdj size u v)
        c1 c2 := by
  obtain ⟨hwords, hseq, hcc, hqual⟩ := hsat
  obtain ⟨hccRow, hccCell⟩ := hcc
  intro c1 c2 h11 h12 h21 h22 hg1 hg2
  refine connected_of_bfs
    (fun c => c.1 < size ∧ c.2 < size ∧ a.G c.1 c.2 ≠ none)
    (fun c => c.1 < size ∧ c.2 < size ∧ a.ccStart c.1 c.2 = true)
    (rectAdj size)
    (fun i c => c.1 < size ∧ c.2 < size ∧ a.inCc c.1 c.2 i = true)
    (maxDistance size) ?_ ?_ ?_ ?_ ?_ ?_ c1 c2 ⟨h11, h12, hg1⟩ ⟨h21, h22, hg2⟩
  · rintro ⟨x, y⟩ ⟨hx, hy, h0⟩
    refine ⟨hx, hy, ?_⟩
    rw [(hccCell y hy x hx).2.1]
    exact h0
  · rintro ⟨x, y⟩ ⟨hx, hy, hs⟩
    exact ⟨hx, hy, ((hccCell y hy x hx).1.mp hs).2.1⟩
  · rintro j ⟨x, y⟩ hj ⟨hx, hy, hr⟩
    obtain ⟨hne, hopts⟩ := (hccCell y hy x hx).2.2.1 j hj hr
    refine ⟨⟨hx, hy, hne⟩, ?_⟩
    rcases hopts with h | ⟨hb, h⟩ | ⟨hb, h⟩ | ⟨hb, h⟩ | ⟨hb, h⟩
    · exact Or.inl ⟨hx, hy, h⟩
    · exact Or.inr ⟨(x - 1, y), ⟨hx, hy, by omega, hy, by omega⟩, ⟨by omega, hy, h⟩⟩
    · exact Or.inr ⟨(x + 1, y), ⟨hx, hy, hb, hy, by omega⟩, ⟨hb, hy, h⟩⟩
    · exact Or.inr ⟨(x, y - 1), ⟨hx, hy, hx, by omega, by omega⟩, ⟨hx, by omega, h⟩⟩
    · exact Or.inr ⟨(x, y + 1), ⟨hx, hy, hx, hb, by omega⟩, ⟨hx, hb, h⟩⟩
  · rintro ⟨x, y⟩ ⟨hx, hy, hg⟩
    exact ⟨hx, hy, (hccCell y hy x hx).2.2.2 hg⟩
  · rintro ⟨x, y⟩ ⟨x', y'⟩ ⟨hx, hy, hs⟩ ⟨hx', hy', hs'⟩
    obtain ⟨hrow, hne, hminx⟩ := (hccCell y hy x hx).1.mp hs
    obtain ⟨hrow', hne', hminx'⟩ := (hccCell y' hy' x' hx').1.mp hs'
    have hyy : y = y' := by
      rcases Nat.lt_trichotomy y y' with h | h | h
      · have hfalse := ((hccRow y' hy').mp hrow').2 y h
        rw [hrow] at hfalse
        cases hfalse
      · exact h
      · have hfalse := ((hccRow y hy).mp hrow).2 y' h
        rw [hrow'] at hfalse
        cases hfalse
    subst hyy
    have hxx : x = x' := by
      rcases Nat.lt_trichotomy x x' with h | h | h
      · have hfalse := hminx' x h
        rw [hs] at hfalse
        cases hfalse
      · exact h
      · have hfalse := hminx x' h
        rw [hs'] at hfalse
        cases hfalse
    rw [hxx]
  · exact fun u v h => rectAdj_symm size h

theorem get_mem_take {α : Type} (l : List α) (k k' : Nat) (hk : k < l.length)
    (h : k < k') : l.get ⟨k, hk⟩ ∈ l.take k' := by
  induction l generalizing k k' with
  | nil => cases hk
  | cons a t ih =>
    cases k with
    | zero =>
      cases k' with
      | zero => omega
      | succ k'' => simp [List.take_succ_cons]
    | succ k2 =>
      cases k' with
      | zero => omega
      | succ k'' =>
        simp only [List.take_succ_cons, List.get_cons_succ, List.mem_cons]
        exact Or.inr (ih k2 k'' (by simpa using hk) (by omega))

theorem hex_connected (words : List Word) (R : Nat) (Q : Int) (a : HexAssign)
    (hsat : HexSat words R Q a) :
    ∀ c1 c2 : Int × Int, c1 ∈ hexCells R → c2 ∈ hexCells R →
      a.G c1.1 c1.2 ≠ none → a.G c2.1 c2.2 ≠ none →
      Relation.ReflTransGen
        (fun u v => (u ∈ hexCells R ∧ a.G u.1 u.2 ≠ none) ∧
                    (v ∈ hexCells R ∧ a.G v.1 v.2 ≠ none) ∧ v ∈ hexNeighbors u)
        c1 c2 := by
  obtain ⟨hwords, hseq, hcc, hqual⟩ := hsat
  obtain ⟨hccStart, hccZero, hccStep, hccClose⟩ := hcc
  intro c1 c2 h1m h2m hg1 hg2
  refine connected_of_bfs
    (fun c => c ∈ hexCells R ∧ a.G c.1 c.2 ≠ none)
    (fun c => c ∈ hexCells R ∧ a.ccStart c.1 c.2 = true)
    (fun u v => v ∈ hexNeighbors u)
    (fun i c => c ∈ hexCells R ∧ a.inCc i c.1 c.2 = true)
    (hexMaxDist R) ?_ ?_ ?_ ?_ ?_ ?_ c1 c2 ⟨h1m, hg1⟩ ⟨h2m, hg2⟩
  · rintro c ⟨hc, h0⟩
    refine ⟨hc, ?_⟩
    rw [← hccZero c hc]
    exact h0
  · rintro c ⟨hc, hs⟩
    obtain ⟨n, hn⟩ := List.mem_iff_get.mp hc
    have hbic := hccStart n.1 n.isLt
    rw [hn] at hbic
    exact ⟨hc, (hbic.mp hs).1⟩
  · rintro j c hj ⟨hc, hr⟩
    obtain ⟨hne, hopts⟩ := (hccStep c hc j hj).mp hr
    refine ⟨⟨hc, hne⟩, ?_⟩
    rcases hopts with h | ⟨n, hnmem, hnin, hncc⟩
    · exact Or.inl ⟨hc, h⟩
    · exact Or.inr ⟨n, hnmem, ⟨(mem_hexCells R n).mpr hnin, hncc⟩⟩
  · rintro c ⟨hc, hg⟩
    exact ⟨hc, hccClose c hc hg⟩
  · rintro c c' ⟨hc, hs⟩ ⟨hc', hs'⟩
    obtain ⟨n, hn⟩ := List.mem_iff_get.mp hc
    obtain ⟨n', hn'⟩ := List.mem_iff_get.mp hc'
    have hbic := hccStart n.1 n.isLt
    rw [hn] at hbic
    have hbic' := hccStart n'.1 n'.isLt
    rw [hn'] at hbic'
    rcases Nat.lt_trichotomy n.1 n'.1 with h | h | h
    · have hgc := (hbic'.mp hs').2 ((hexCells R).get n)
        (get_mem_take (hexCells R) n.1 n'.1 n.isLt h)
      rw [hn] at hgc
      exact absurd hgc (hbic.mp hs).1
    · have he : n = n' := Fin.ext h
      rw [← hn, ← hn', he]
    · have hgc := (hbic.mp hs).2 ((hexCells R).get n')
        (get_mem_take (hexCells R) n'.1 n.1 n'.isLt h)
      rw [hn'] at hgc
      exact absurd hgc (hbic'.mp hs').1
  · exact fun u v h => hexNeighbors_symm h

/-! ## Maximal runs spell placed words (C3) -/

theorem run_fits {γ : Type} (f : Nat → γ) (inG : γ → Prop) (G : γ → Option Char)
    (w : Word) (L : Nat) (_hL : 2 ≤ L)
    (hrunNe : ∀ i < L, G (f i) ≠ none)
    (hrunIn : ∀ i < L, inG (f i))
    (hend : inG (f L) → G (f L) = none)
    (hlegal : ∀ i < w.length, inG (f i))
    (hmatch : ∀ i, (h : i < w.length) → G (f i) = some (w.get ⟨i, h⟩))
    (hbound : inG (f w.length) → G (f w.length) = none) :
    w.length = L ∧ ∀ i < L, G (f i) = w.get? i := by
  have hlen : w.length = L := by
    rcases Nat.lt_trichotomy w.length L with hlt | heq | hgt
    · exact absurd (hbound (hrunIn _ hlt)) (hrunNe _ hlt)
    · exact heq
    · have h2 := hmatch L hgt
      rw [hend (hlegal L hgt)] at h2
      exact absurd h2 (by simp)
  refine ⟨hlen, fun i hi => ?_⟩
  have hi' : i < w.length := by omega
  rw [hmatch i hi']
  exact (List.get?_eq_get hi').symm

theorem rect_nojunk_H (words : List Word) (size : Nat) (Q : Int) (a : RectAssign)
    (hsat : RectSat words size Q a) (x y L : Nat)
    (hy : y < size) (hfit : x + L ≤ size) (hL : 2 ≤ L)
    (hrun : ∀ i < L, a.G (x + i) y ≠ none)
    (hprev : 0 < x → a.G (x - 1) y = none)
    (hend : x + L < size → a.G (x + L) y = none) :
    ∃ w ∈ words, a.P w x y true = true ∧ w.length = L ∧
      ∀ i < L, a.G (x + i) y = w.get? i := by
  obtain ⟨hwords, hseqq, hcc, hq⟩ := hsat
  have hx : x < size := by omega
  have hx1 : x + 1 < size := by omega
  have hseq := (hseqq x hx y hy).1 hx1
  have hg0 : a.G x y ≠ none := by
    have h := hrun 0 (by omega)
    simpa using h
  obtain ⟨w, hw, hwfit, hwP⟩ := hseq.mp ⟨hprev, hg0, hrun 1 (by omega)⟩
  obtain ⟨hmatch, hbefore, hafter⟩ := ((hwords w hw).1 x hx y hy).1 hwfit hwP
  obtain ⟨hlen, hletters⟩ :=
    run_fits (fun i => (x + i, y)) (fun c => c.1 < size ∧ c.2 < size)
      (fun c => a.G c.1 c.2) w L hL
      (fun i hi => hrun i hi)
      (fun i hi => ⟨show x + i < size by omega, hy⟩)
      (fun hin => hend hin.1)
      (fun i hi => ⟨show x + i < size by omega, hy⟩)
      (fun i hi => hmatch i hi)
      (fun hin => hafter hin.1)
  exact ⟨w, hw, hwP, hlen, hletters⟩

theorem rect_nojunk_V (words : List Word) (size : Nat) (Q : Int) (a : RectAssign)
    (hsat : RectSat words size Q a) (x y L : Nat)
    (hx : x < size) (hfit : y + L ≤ size) (hL : 2 ≤ L)
    (hrun : ∀ i < L, a.G x (y + i) ≠ none)
    (hprev : 0 < y → a.G x (y - 1) = none)
    (hend : y + L < size → a.G x (y + L) = none) :
    ∃ w ∈ words, a.P w x y false = true ∧ w.length = L ∧
      ∀ i < L, a.G x (y + i) = w.get? i := by
  obtain ⟨hwords, hseqq, hcc, hq⟩ := hsat
  have hy : y < size := by omega
  have hy1 : y + 1 < size := by omega
  have hseq := (hseqq x hx y hy).2 hy1
  have hg0 : a.G x y ≠ none := by
    have h := hrun 0 (by omega)
    simpa using h
  obtain ⟨w, hw, hwfit, hwP⟩ := hseq.mp ⟨hprev, hg0, hrun 1 (by omega)⟩
  obtain ⟨hmatch, hbefore, hafter⟩ := ((hwords w hw).1 x hx y hy).2 hwfit hwP
  obtain ⟨hlen, hletters⟩ :=
    run_fits (fun i => (x, y + i)) (fun c => c.1 < size ∧ c.2 < size)
      (fun c => a.G c.1 c.2) w L hL
      (fun i hi => hrun i hi)
      (fun i hi => ⟨hx, show y + i < size by omega⟩)
      (fun hin => hend hin.2)
      (fun i hi => ⟨hx, show y + i < size by omega⟩)
      (fun i hi => hmatch i hi)
      (fun hin => hafter hin.2)
  exact ⟨w, hw, hwP, hlen, hletters⟩

theorem hexStep_zero (q r : Int) (o : Fin 3) : hexStep q r o 0 = (q, r) := by
  unfold hexStep
  split
  · simp
  · split <;> simp

theorem hex_nojunk (words : List Word) (R : Nat) (Q : Int) (a : HexAssign)
    (hsat : HexSat words R Q a) (q r : Int) (o : Fin 3) (L : Nat) (hL : 2 ≤ L)
    (hrunIn : ∀ i : Nat, i < L → inHex R (hexStep q r o (i : Int)))
    (hrun : ∀ i : Nat, i < L →
      a.G (hexStep q r o (i : Int)).1 (hexStep q r o (i : Int)).2 ≠ none)
    (hprev : inHex R (hexStep q r o (-1)) →
      a.G (hexStep q r o (-1)).1 (hexStep q r o (-1)).2 = none)
    (hend : inHex R (hexStep q r o (L : Int)) →
      a.G (hexStep q r o (L : Int)).1 (hexStep q r o (L : Int)).2 = none) :
    ∃ w ∈ words, a.P w q r o = true ∧ w.length = L ∧
      ∀ i : Nat, i < L →
        a.G (hexStep q r o (i : Int)).1 (hexStep q r o (i : Int)).2 = w.get? i := by
  obtain ⟨hwords, hseqq, hcc, hq⟩ := hsat
  have h0in : inHex R (q, r) := by
    have h := hrunIn 0 (by omega)
    rw [show ((0 : Nat) : Int) = 0 from rfl, hexStep_zero] at h
    exact h
  have hmem : (q, r) ∈ hexCells R := (mem_hexCells R (q, r)).mpr h0in
  have h1in : inHex R (hexStep q r o 1) := by
    have h := hrunIn 1 (by omega)
    simpa using h
  have hseq := hseqq (q, r) hmem o h1in
  have hg0 : a.G q r ≠ none := by
    have h := hrun 0 (by omega)
    rw [show ((0 : Nat) : Int) = 0 from rfl, hexStep_zero] at h
    exact h
  have hg1 : a.G (hexStep q r o 1).1 (hexStep q r o 1).2 ≠ none := by
    have h := hrun 1 (by omega)
    simpa using h
  obtain ⟨w, hw, hwleg, hwP⟩ := hseq.mp ⟨hprev, hg0, hg1⟩
  obtain ⟨hmatch, hbefore, hafter⟩ := (hwords w hw).1 (q, r) hmem o hwleg hwP
  obtain ⟨hlen, hletters⟩ :=
    run_fits (fun i => hexStep q r o (i : Int)) (inHex R)
      (fun c => a.G c.1 c.2) w L hL
      (fun i hi => hrun i hi)
      (fun i hi => hrunIn i hi)
      hend
      (fun i hi => hwleg i hi)
      (fun i hi => hmatch i hi)
      hafter
  exact ⟨w, hw, hwP, hlen, hletters⟩

/-! ## Claim theorems -/

/-- C1 (amended): in every satisfying model of either encoder, a selected
word has at least one placement variable among its fitting placements true,
and at most one fitting placement variable of each word is true.  The
converse direction of the claimed biconditional (a true placement variable
forcing the selection variable) is not part of the emitted formula. -/
theorem C1_theorem :
    (∀ (words : List Word) (size : Nat) (Q : Int) (a : RectAssign),
      RectSat words size Q a → ∀ w ∈ words,
      (a.S w = true → ∃ p ∈ rectWordPlacements w size, a.P w p.1 p.2.1 p.2.2 = true) ∧
      (∀ p1 ∈ rectWordPlacements w size, ∀ p2 ∈ rectWordPlacements w size,
        a.P w p1.1 p1.2.1 p1.2.2 = true → a.P w p2.1 p2.2.1 p2.2.2 = true → p1 = p2)) ∧
    (∀ (words : List Word) (R : Nat) (Q : Int) (a : HexAssign),
      HexSat words R Q a → ∀ w ∈ words,
      (a.S w = true → ∃ p ∈ hexWordPlacements w R, a.P w p.1.1 p.1.2 p.2 = true) ∧
      (∀ p1 ∈ hexWordPlacements w R, ∀ p2 ∈ hexWordPlacements w R,
        a.P w p1.1.1 p1.1.2 p1.2 = true → a.P w p2.1.1 p2.1.2 p2.2 = true → p1 = p2)) :=
  ⟨fun _ _ _ _ hsat w hw => ⟨(hsat.1 w hw).2.2, (hsat.1 w hw).2.1⟩,
   fun _ _ _ _ hsat w hw => ⟨(hsat.1 w hw).2.2, (hsat.1 w hw).2.1⟩⟩

/-- C1 (counterexample): a satisfying model of the rectangular formula for
words = [AB], size = 2, Q = 0 in which a placement variable of AB is true
while its selection variable is false, refuting the claimed biconditional
S(w) iff some P(w,c,d). -/
theorem C1_counterexample :
    RectSat [wAB] 2 0 mAB ∧ mAB.P wAB 0 0 true = true ∧ mAB.S wAB = false := by
  decide

/-- C1 (witness): the amended selection direction applied to the concrete
hexagonal model in which AB is selected. -/
theorem C1_witness :
    ∃ p ∈ hexWordPlacements wAB 1, mHexAB.P wAB p.1.1 p.1.2 p.2 = true :=
  (C1_theorem.2 [wAB] 1 2 mHexAB (by decide) wAB (by decide)).1 (by decide)

/-- C2: in every satisfying model of either encoder, any two in-grid
non-EMPTY cells are joined by a path of in-grid non-EMPTY cells that are
pairwise neighbours in the geometry, i.e. the non-EMPTY cells form a single
connected component (or the empty set). -/
theorem C2_theorem :
    (∀ (words : List Word) (size : Nat) (Q : Int) (a : RectAssign),
      RectSat words size Q a →
      ∀ c1 c2 : Nat × Nat, c1.1 < size → c1.2 < size → c2.1 < size → c2.2 < size →
        a.G c1.1 c1.2 ≠ none → a.G c2.1 c2.2 ≠ none →
        Relation.ReflTransGen
          (fun u v => (u.1 < size ∧ u.2 < size ∧ a.G u.1 u.2 ≠ none) ∧
                      (v.1 < size ∧ v.2 < size ∧ a.G v.1 v.2 ≠ none) ∧ rectAdj size u v)
          c1 c2) ∧
    (∀ (words : List Word) (R : Nat) (Q : Int) (a : HexAssign),
      HexSat words R Q a →
      ∀ c1 c2 : Int × Int, c1 ∈ hexCells R → c2 ∈ hexCells R →
        a.G c1.1 c1.2 ≠ none → a.G c2.1 c2.2 ≠ none →
        Relation.ReflTransGen
          (fun u v => (u ∈ hexCells R ∧ a.G u.1 u.2 ≠ none) ∧
                      (v ∈ hexCells R ∧ a.G v.1 v.2 ≠ none) ∧ v ∈ hexNeighbors u)
          c1 c2) :=
  ⟨rect_connected, hex_connected⟩

/-- C2 (witness): connectivity applied to the two concrete models, joining
(0,0) and (1,0). -/
theorem C2_witness :
    Relation.ReflTransGen
      (fun u v => (u.1 < 2 ∧ u.2 < 2 ∧ mAB.G u.1 u.2 ≠ none) ∧
                  (v.1 < 2 ∧ v.2 < 2 ∧ mAB.G v.1 v.2 ≠ none) ∧ rectAdj 2 u v)
      (0, 0) (1, 0) ∧
    Relation.ReflTransGen
      (fun u v => (u ∈ hexCells 1 ∧ mHexAB.G u.1 u.2 ≠ none) ∧
                  (v ∈ hexCells 1 ∧ mHexAB.G v.1 v.2 ≠ none) ∧ v ∈ hexNeighbors u)
      (0, 0) (1, 0) :=
  ⟨C2_theorem.1 [wAB] 2 0 mAB (by decide) (0, 0) (1, 0) (by decide) (by decide)
      (by decide) (by decide) (by decide) (by decide),
   C2_theorem.2 [wAB] 1 2 mHexAB (by decide) (0, 0) (1, 0) (by decide) (by decide)
      (by decide) (by decide)⟩

/-- C3: in every satisfying model of either encoder, every maximal run of at
least two non-EMPTY cells along a geometry direction carries some listed
word: a word whose placement variable at the run's start cell and direction
is true, whose length equals the run length, and whose letters are the run's
cell contents. -/
theorem C3_theorem :
    (∀ (words : List Word) (size : Nat) (Q : Int) (a : RectAssign),
      RectSat words size Q a → ∀ x y L : Nat,
      y < size → x + L ≤ size → 2 ≤ L →
      (∀ i < L, a.G (x + i) y ≠ none) →
      (0 < x → a.G (x - 1) y = none) →
      (x + L < size → a.G (x + L) y = none) →
      ∃ w ∈ words, a.P w x y true = true ∧ w.length = L ∧
        ∀ i < L, a.G (x + i) y = w.get? i) ∧
    (∀ (words : List Word) (size : Nat) (Q : Int) (a : RectAssign),
      RectSat words size Q a → ∀ x y L : Nat,
      x < size → y + L ≤ size → 2 ≤ L →
      (∀ i < L, a.G x (y + i) ≠ none) →
      (0 < y → a.G x (y - 1) = none) →
      (y + L < size → a.G x (y + L) = none) →
      ∃ w ∈ words, a.P w x y false = true ∧ w.length = L ∧
        ∀ i < L, a.G x (y + i) = w.get? i) ∧
    (∀ (words : List Word) (R : Nat) (Q : Int) (a : HexAssign),
      HexSat words R Q a → ∀ (q r : Int) (o : Fin 3) (L : Nat), 2 ≤ L →
      (∀ i : Nat, i < L → inHex R (hexStep q r o (i : Int))) →
      (∀ i : Nat, i < L →
        a.G (hexStep q r o (i : Int)).1 (hexStep q r o (i : Int)).2 ≠ none) →
      (inHex R (hexStep q r o (-1)) →
        a.G (hexStep q r o (-1)).1 (hexStep q r o (-1)).2 = none) →
      (inHex R (hexStep q r o (L : Int)) →
        a.G (hexStep q r o (L : Int)).1 (hexStep q r o (L : Int)).2 = none) →
      ∃ w ∈ words, a.P w q r o = true ∧ w.length = L ∧
        ∀ i : Nat, i < L →
          a.G (hexStep q r o (i : Int)).1 (hexStep q r o (i : Int)).2 = w.get? i) :=
  ⟨fun words size Q a hsat x y L hy hfit hL hrun hprev hend =>
     rect_nojunk_H words size Q a hsat x y L hy hfit hL hrun hprev hend,
   fun words size Q a hsat x y L hx hfit hL hrun hprev hend =>
     rect_nojunk_V words size Q a hsat x y L hx hfit hL hrun hprev hend,
   fun words R Q a hsat q r o L hL hrunIn hrun hprev hend =>
     hex_nojunk words R Q a hsat q r o L hL hrunIn hrun hprev hend⟩

/-- C3 (witness): the horizontal run A B of the rectangular model and the
orientation-0 run A B of the hexagonal model are both explained by the
placed word AB. -/
theorem C3_witness :
    (∃ w ∈ [wAB], mAB.P w 0 0 true = true ∧ w.length = 2 ∧
      ∀ i < 2, mAB.G (0 + i) 0 = w.get? i) ∧
    (∃ w ∈ [wAB], mHexAB.P w 0 0 0 = true ∧ w.length = 2 ∧
      ∀ i : Nat, i < 2 →
        mHexAB.G (hexStep 0 0 0 (i : Int)).1 (hexStep 0 0 0 (i : Int)).2 = w.get? i) :=
  ⟨C3_theorem.1 [wAB] 2 0 mAB (by decide) 0 0 2 (by decide) (by decide) (by decide)
      (by decide) (by decide) (by decide),
   C3_theorem.2.2 [wAB] 1 2 mHexAB (by decide) 0 0 0 2 (by decide) (by decide)
      (by decide) (by decide) (by decide)⟩

/-- C4 (code evaluated at the failing input): the hexagonal diameter bound
used by the encoder at radius 1 is 3, yet the 5-cell ring subset of the
radius-1 disk is connected (all pairs joined within 4 steps inside the set)
while its two end cells are not joined within 3 steps, so its graph diameter
is 4 > 3 and the bound fails to dominate it. -/
theorem C4_bug :
    hexMaxDist 1 = 3 ∧
    (∀ c ∈ ringS, c ∈ hexCells 1) ∧
    (∀ a ∈ ringS, ∀ b ∈ ringS, hexReachInB ringS 4 a b = true) ∧
    hexReachInB ringS (hexMaxDist 1) (1, 0) (0, -1) = false := by
  decide

/-- C5 (amended): in every satisfying model, every cell covered by a placed
word carries exactly that word's letter at the corresponding offset
(character coherence); a non-EMPTY cell may however be covered by zero
placed words, or by several crossing ones. -/
theorem C5_theorem :
    (∀ (words : List Word) (size : Nat) (Q : Int) (a : RectAssign),
      RectSat words size Q a → ∀ w ∈ words, ∀ x y : Nat,
      ((x, y, true) ∈ rectWordPlacements w size → a.P w x y true = true →
        ∀ i, (h : i < w.length) → a.G (x + i) y = some (w.get ⟨i, h⟩)) ∧
      ((x, y, false) ∈ rectWordPlacements w size → a.P w x y false = true →
        ∀ i, (h : i < w.length) → a.G x (y + i) = some (w.get ⟨i, h⟩))) ∧
    (∀ (words : List Word) (R : Nat) (Q : Int) (a : HexAssign),
      HexSat words R Q a → ∀ w ∈ words, ∀ c ∈ hexCells R, ∀ o : Fin 3,
      hexLegal w R c.1 c.2 o → a.P w c.1 c.2 o = true →
      ∀ i, (h : i < w.length) →
        a.G (hexStep c.1 c.2 o (i : Int)).1 (hexStep c.1 c.2 o (i : Int)).2 =
          some (w.get ⟨i, h⟩)) := by
  constructor
  · intro words size Q a hsat w hw x y
    constructor
    · intro hmem hP
      obtain ⟨hx, hy, hfit⟩ := (mem_rectWordPlacements w size (x, y, true)).mp hmem
      rw [if_pos rfl] at hfit
      exact (((hsat.1 w hw).1 x hx y hy).1 hfit hP).1
    · intro hmem hP
      obtain ⟨hx, hy, hfit⟩ := (mem_rectWordPlacements w size (x, y, false)).mp hmem
      rw [if_neg Bool.false_ne_true] at hfit
      exact (((hsat.1 w hw).1 x hx y hy).2 hfit hP).1
  · intro words R Q a hsat w hw c hc o hleg hP
    exact ((hsat.1 w hw).1 c hc o hleg hP).1

/-- C5 (counterexample): a satisfying model of the rectangular formula for
words = [AB], size = 2, Q = 0 with the single non-EMPTY cell (1,1), for
which every placement variable is false: the letter in that cell is covered
by zero placed words, refuting the claimed exactly-one coverage. -/
theorem C5_counterexample :
    RectSat [wAB] 2 0 mIso ∧ mIso.G 1 1 ≠ none ∧
    ∀ w ∈ [wAB], ∀ p ∈ rectWordPlacements w 2, mIso.P w p.1 p.2.1 p.2.2 = false := by
  decide

/-- C5 (witness): character coherence at the placed word of the concrete
rectangular model. -/
theorem C5_witness : mAB.G 0 0 = some 'A' :=
  ((C5_theorem.1 [wAB] 2 0 mAB (by decide) wAB (by decide) 0 0).1 (by decide)
    (by decide)) 0 (by decide)

/-- C6 (amended): generateCrossword rejects, before any encoding, negative
quality, non-positive size, a word longer than the grid (by assertion) and
an empty word list (the max() call raises); generateHexCrossword rejects a
non-positive radius and a word longer than 2R+1, but checks neither the
sign of the quality floor nor emptiness of the word list. -/
theorem C6_theorem :
    (∀ (words : List Word) (size Q : Int),
      Q < 0 ∨ size ≤ 0 ∨ words = [] ∨ (∃ w ∈ words, size < (w.length : Int)) →
      rectPrecheck words size Q ≠ .ok) ∧
    (∀ (words : List Word) (radius Q : Int), radius ≤ 0 →
      hexPrecheck words radius Q ≠ .ok) ∧
    (∀ (words : List Word) (radius Q : Int) (w : Word), w ∈ words → 1 ≤ radius →
      2 * radius + 1 < (w.length : Int) → hexPrecheck words radius Q ≠ .ok) := by
  refine ⟨?_, ?_, ?_⟩
  · intro words size Q h hok
    unfold rectPrecheck at hok
    by_cases h1 : Q < 0
    · rw [if_pos h1] at hok
      exact absurd hok (by decide)
    rw [if_neg h1] at hok
    by_cases h2 : size ≤ 0
    · rw [if_pos h2] at hok
      exact absurd hok (by decide)
    rw [if_neg h2] at hok
    by_cases h3 : words = []
    · rw [if_pos h3] at hok
      exact absurd hok (by decide)
    rw [if_neg h3] at hok
    rcases h with h | h | h | ⟨w, hw, hlen⟩
    · exact h1 h
    · exact h2 h
    · exact h3 h
    · have hle := le_maxLenW hw
      rw [if_neg (by omega)] at hok
      exact absurd hok (by decide)
  · intro words radius Q hr hok
    unfold hexPrecheck at hok
    rw [if_pos hr] at hok
    exact absurd hok (by decide)
  · intro words radius Q w hw hrad hlen hok
    unfold hexPrecheck at hok
    have hw' : (w.map Char.toUpper) ∈ hexNormWords words := by
      unfold hexNormWords
      rw [List.mem_dedup]
      refine List.mem_map.mpr ⟨w, ?_, rfl⟩
      rw [List.mem_filter]
      refine ⟨hw, ?_⟩
      cases w with
      | nil => simp at hlen; omega
      | cons a t => rfl
    have hle := le_maxLenW hw'
    rw [List.length_map] at hle
    rw [if_neg (by omega), if_pos (by omega)] at hok
    exact absurd hok (by decide)

/-- C6 (counterexample): the hexagonal generator accepts a negative quality
floor and an empty word list: neither input reaches any error before
encoding, refuting the claimed rejection. -/
theorem C6_counterexample :
    hexPrecheck [wAB] 1 (-1) = .ok ∧ hexPrecheck [] 2 5 = .ok := by decide

/-- C6 (witness): the amended rejections at concrete bad inputs. -/
theorem C6_witness :
    rectPrecheck [wAB] 2 (-1) ≠ .ok ∧ hexPrecheck [wAB] 0 4 ≠ .ok ∧
    hexPrecheck [['T', 'O', 'O', 'L', 'O', 'N', 'G']] 1 4 ≠ .ok :=
  ⟨C6_theorem.1 [wAB] 2 (-1) (Or.inl (by decide)),
   C6_theorem.2.1 [wAB] 0 4 (by decide),
   C6_theorem.2.2 [['T', 'O', 'O', 'L', 'O', 'N', 'G']] 1 4
     ['T', 'O', 'O', 'L', 'O', 'N', 'G'] (by decide) (by decide) (by decide)⟩

/-- C7 (amended): on a trivially inconsistent goal the hexagonal exportCNF
returns False without writing a file and its session prints a normal UNSAT
message, while the rectangular exportCNF raises an AssertionError and its
session aborts. -/
theorem C7_theorem :
    hexExportCNF true = .returnedFalse ∧
    hexSessionOnExport (hexExportCNF true) = .printedUnsat ∧
    rectExportCNF true = .assertionFailed ∧
    rectSessionOnExport (rectExportCNF true) = .aborted :=
  ⟨rfl, rfl, rfl, rfl⟩

/-- C7 (counterexample): the rectangular session aborts on trivial UNSAT
instead of surfacing it as a normal UNSAT result. -/
theorem C7_counterexample :
    rectSessionOnExport (rectExportCNF true) = .aborted ∧
    rectSessionOnExport (rectExportCNF true) ≠ .printedUnsat := by decide

/-- C8 (amended): both interpreters are total functions; on a model whose
unique true placement variable for a word is the given one they return
exactly that placement.  On a model with several true placement variables
they silently return one of them (see the counterexample) instead of
raising a fatal error. -/
theorem C8_theorem :
    (∀ (P : Nat → Nat → Bool → Bool) (size x0 y0 : Nat) (o0 : Bool),
      x0 < size → y0 < size → P x0 y0 o0 = true →
      (∀ x < size, ∀ y < size, ∀ o : Bool, P x y o = true → (x, y, o) = (x0, y0, o0)) →
      rectInterpretWord P size = some ⟨x0, y0, o0⟩) ∧
    (∀ (P : Int → Int → Fin 3 → Bool) (R : Nat) (c0 : Int × Int) (o0 : Fin 3),
      c0 ∈ hexCells R → P c0.1 c0.2 o0 = true →
      (∀ c ∈ hexCells R, ∀ o : Fin 3, P c.1 c.2 o = true → (c, o) = (c0, o0)) →
      hexInterpretWord P R = some ⟨c0.1, c0.2, o0⟩) :=
  ⟨fun P size x0 y0 o0 hx hy ht hu => rectInterpretWord_unique P size x0 y0 o0 hx hy ht hu,
   fun P R c0 o0 hc ht hu => hexInterpretWord_unique P R c0 o0 hc ht hu⟩

/-- C8 (counterexample): on a model with two true placement variables for
the same word the rectangular interpret silently returns the later one in
scan order, a normal value rather than a fatal error. -/
theorem C8_counterexample :
    doubleP 0 0 true = true ∧ doubleP 1 1 true = true ∧
    rectInterpretWord doubleP 2 = some ⟨1, 1, true⟩ := by decide

/-- C8 (witness): the unique-placement case applied to both concrete
models. -/
theorem C8_witness :
    rectInterpretWord (mAB.P wAB) 2 = some ⟨0, 0, true⟩ ∧
    hexInterpretWord (mHexAB.P wAB) 1 = some ⟨0, 0, 0⟩ :=
  ⟨C8_theorem.1 (mAB.P wAB) 2 0 0 true (by decide) (by decide) (by decide) (by decide),
   C8_theorem.2 (mHexAB.P wAB) 1 (0, 0) 0 (by decide) (by decide) (by decide)⟩

/-- C9 (amended): both encoders allocate a placement variable for every
word and every in-grid start cell and direction, with no legality filter;
only legal placements however enter the per-word placement lists (and hence
the constraints). -/
theorem C9_theorem :
    (∀ (words : List Word) (size : Nat) (w : Word) (x y : Nat) (o : Bool),
      (w, x, y, o) ∈ rectAllocatedVars words size ↔ w ∈ words ∧ x < size ∧ y < size) ∧
    (∀ (w : Word) (size : Nat) (p : Nat × Nat × Bool),
      p ∈ rectWordPlacements w size ↔
        (p.1 < size ∧ p.2.1 < size ∧
          (if p.2.2 then p.1 + w.length ≤ size else p.2.1 + w.length ≤ size))) ∧
    (∀ (words : List Word) (R : Nat) (w : Word) (c : Int × Int) (o : Fin 3),
      (w, c, o) ∈ hexAllocatedVars words R ↔ w ∈ words ∧ inHex R c) ∧
    (∀ (w : Word) (R : Nat) (p : (Int × Int) × Fin 3),
      p ∈ hexWordPlacements w R ↔ p.1 ∈ hexCells R ∧ hexLegal w R p.1.1 p.1.2 p.2) :=
  ⟨mem_rectAllocatedVars,
   fun w size p => mem_rectWordPlacements w size p,
   mem_hexAllocatedVars,
   fun w R p => mem_hexWordPlacements w R p⟩

/-- C9 (counterexample): an illegal placement triple (the word AB does not
fit horizontally at (1,0) in a 2-grid, nor at hexagonal cell (1,0) along
orientation 0 in the radius-1 disk) whose placement variable is allocated
all the same, refuting the claim that illegal triples receive no
variable. -/
theorem C9_counterexample :
    (wAB, 1, 0, true) ∈ rectAllocatedVars [wAB] 2 ∧
    rectLegalB wAB 2 1 0 true = false ∧
    (wAB, ((1 : Int), (0 : Int)), (0 : Fin 3)) ∈ hexAllocatedVars [wAB] 1 ∧
    ¬hexLegal wAB 1 1 0 0 := by decide

/-- C10: under the encoder preconditions every word has at least one legal
placement (horizontally at (0,0) on the rectangle; along the central axis-0
line starting at (-R,0) on the hex disk), so the per-word placement lists
fed to Or and AtMost are never empty. -/
theorem C10_theorem :
    (∀ (w : Word) (size : Nat), 0 < size → w.length ≤ size →
      rectWordPlacements w size ≠ []) ∧
    (∀ (w : Word) (R : Nat), 1 ≤ R → w.length ≤ 2 * R + 1 →
      hexWordPlacements w R ≠ []) := by
  constructor
  · intro w size hs hlen
    have hmem : (0, 0, true) ∈ rectWordPlacements w size :=
      (mem_rectWordPlacements w size (0, 0, true)).mpr
        ⟨hs, hs, by rw [if_pos rfl]; omega⟩
    exact List.ne_nil_of_mem hmem
  · intro w R hR hlen
    have hmem : ((-(R : Int), 0), (0 : Fin 3)) ∈ hexWordPlacements w R := by
      refine (mem_hexWordPlacements w R _).mpr ⟨?_, ?_⟩
      · refine (mem_hexCells R _).mpr ?_
        show (-(R : Int)).natAbs + (0 : Int).natAbs + (-(R : Int) + 0).natAbs ≤ 2 * R
        omega
      · intro i hi
        show ((-(R : Int) + i).natAbs + (0 : Int).natAbs +
          ((-(R : Int) + i) + 0).natAbs ≤ 2 * R)
        omega
    exact List.ne_nil_of_mem hmem

/-- C10 (witness): non-empty placement lists for the concrete word AB. -/
theorem C10_witness :
    rectWordPlacements wAB 2 ≠ [] ∧ hexWordPlacements wAB 1 ≠ [] :=
  ⟨C10_theorem.1 wAB 2 (by decide) (by decide),
   C10_theorem.2 wAB 1 (by decide) (by decide)⟩
